import Mathlib

/-!
Shallow embedding of `src/main.rs` of the `shortest-path` repository
(a word-ladder solver), together with proofs of its specification.

Words are modelled as lists of characters.  The Rust `BTreeSet<&str>`
dictionary is modelled as a lexicographically sorted, duplicate-free
list of words built by ordered insertion (`insertSorted`), which
reproduces the set's membership, removal and ascending iteration
behaviour.  The breadth-first search loop is modelled as a
fuel-indexed recursion; a termination measure (`bfsMeasure`) is
proved to decrease strictly at every iteration, and `shortest_path`
runs the loop with fuel strictly greater than the initial measure,
which is proved sufficient, so the out-of-fuel branch is unreachable.

The corpus (the file `english3.txt`, external to the source) is a
parameter: a list of whitespace-separated tokens.
-/

abbrev Word := List Char

/-- The error type of `main.rs` (`enum Error`). -/
inductive SPError : Type where
  | NoPathExists (start_word end_word : Word)
  | NotInDictionary (word : Word)
  | WordsUnequalLen (start_word end_word : Word)
  deriving DecidableEq, Repr

/-- `hamming_distance` of `main.rs`: fold over the zip of the two
character sequences, counting positions where they differ. -/
def hamming_distance (word1 word2 : Word) : Nat :=
  (word1.zip word2).foldl
    (fun distance c => if c.1 ≠ c.2 then distance + 1 else distance) 0

/-- Ordered, deduplicating insertion into a sorted list: the model of
`BTreeSet::insert` on the sorted-list representation of the set. -/
def insertSorted (w : Word) : List Word → List Word
  | [] => [w]
  | x :: xs =>
    if w < x then w :: x :: xs
    else if w = x then x :: xs
    else x :: insertSorted w xs

/-- `load_dictionary` of `main.rs`: filter the corpus tokens by length
and collect them into a `BTreeSet` (here: sorted deduplicated list). -/
def load_dictionary (corpus : List Word) (word_len : Nat) : List Word :=
  (corpus.filter (fun line => line.length == word_len)).foldl
    (fun s w => insertSorted w s) []

/-- A search node of `main.rs` (`struct Node`): the node's word paired
with the chain of ancestor words, nearest parent first (the root has
an empty chain).  This flattens the Rust `Rc` parent pointers. -/
abbrev SPNode := Word × List Word

/-- The words at Hamming distance exactly 1 from `w` in the dictionary,
in the dictionary's ascending iteration order: the `one_away` iterator
of `main.rs`. -/
def one_away (dict : List Word) (w : Word) : List Word :=
  dict.filter (fun word => hamming_distance w word == 1)

/-- The path returned by `main.rs` when the child node holding
`end_word` is reached: the child's word followed by the ancestor chain,
pushed to the front of a deque, i.e. the reverse of the chain. -/
def assemblePath (end_word : Word) (current : SPNode) : List Word :=
  (end_word :: current.1 :: current.2).reverse

/-- Termination measure for the search loop: every frontier node is
weighted exponentially in the number of dictionary words distinct from
its own.  The measure strictly decreases at each iteration. -/
def bfsMeasure (dict : List Word) (search : List SPNode) : Nat :=
  (search.map (fun node => (dict.length + 2) ^ (dict.erase node.1).length)).sum

/-- The `while let Some(current) = search.pop_front()` loop of
`shortest_path` in `main.rs`, as a fuel-indexed recursion.
`none` means the fuel ran out (proved unreachable for fuel
exceeding `bfsMeasure`). -/
def bfsLoop (start_word end_word : Word) :
    Nat → List Word → List SPNode → Option (Except SPError (List Word))
  | 0, _, _ => none
  | _ + 1, _, [] =>
    some (.error (.NoPathExists start_word end_word))
  | fuel + 1, dict, current :: rest =>
    let dict' := dict.erase current.1
    let nbrs := one_away dict' current.1
    if end_word ∈ nbrs then
      some (.ok (assemblePath end_word current))
    else
      bfsLoop start_word end_word fuel dict'
        (rest ++ nbrs.map (fun word => (word, current.1 :: current.2)))

/-- `shortest_path` of `main.rs`.  Validation order follows the source:
equal lengths, then dictionary membership of start, then of end, then
the `start_word == end_word` base case, then the breadth-first loop.
The `none` fallback of the fueled loop is proved unreachable
(`bfsLoop_isSome`). -/
def shortest_path (corpus : List Word) (start_word end_word : Word) :
    Except SPError (List Word) :=
  if start_word.length ≠ end_word.length then
    .error (.WordsUnequalLen start_word end_word)
  else
    let dictionary := load_dictionary corpus start_word.length
    if start_word ∉ dictionary then .error (.NotInDictionary start_word)
    else if end_word ∉ dictionary then .error (.NotInDictionary end_word)
    else if start_word = end_word then .ok [start_word]
    else
      match bfsLoop start_word end_word
          (bfsMeasure dictionary [(start_word, [])] + 1)
          dictionary [(start_word, [])] with
      | some r => r
      | none => .error (.NoPathExists start_word end_word)

/-- A word ladder through `dict` from `s` to `e`: a nonempty sequence
of dictionary words starting at `s`, ending at `e`, every consecutive
pair at Hamming distance exactly 1. -/
def IsLadder (dict : List Word) (s e : Word) (p : List Word) : Prop :=
  p.head? = some s ∧ p.getLast? = some e ∧
    List.Chain' (fun a b => hamming_distance a b = 1) p ∧
    ∀ w ∈ p, w ∈ dict

/-- A frontier node is valid when the reversal of its word-plus-ancestor
chain is a word ladder from the start word to the node's word. -/
def ValidNode (dict₀ : List Word) (s : Word) (nd : SPNode) : Prop :=
  IsLadder dict₀ s nd.1 ((nd.1 :: nd.2).reverse)

/-- A duplicate-free ladder suffix: from the word of node `nd`, the
words of `l` continue to `e`, each step a single substitution, with
every continuation word still present in the working dictionary.
This is the data the completeness invariant carries. -/
def TailLadder (dict : List Word) (e : Word) (nd : SPNode)
    (l : List Word) : Prop :=
  List.Chain' (fun a b => hamming_distance a b = 1) (nd.1 :: l) ∧
    (nd.1 :: l).getLast? = some e ∧ (∀ w ∈ l, w ∈ dict) ∧
    (nd.1 :: l).Nodup

/-- Demonstration corpus used by the concrete witnesses. -/
def demoCorpus : List Word :=
  [['c','a','t'], ['c','o','t'], ['c','o','g'], ['d','o','g'],
   ['b','a','t'], ['b','a','d'], ['f','i','s','h']]

/-- A second demonstration corpus (`cag` added) in which two distinct
shortest `cat → dog` ladders exist and the word `cog` is discovered
from two different parents within one level. -/
def demoCorpus2 : List Word :=
  [['c','a','t'], ['c','o','t'], ['c','o','g'], ['d','o','g'],
   ['b','a','t'], ['b','a','d'], ['c','a','g']]

/-- The search loop again, instrumented with a trace: the first
component of the accumulator records every word actually removed from
the dictionary (a removal happens only when the popped node's word is
still present), the second records every word pushed onto the
frontier, in order.  The computation is identical to `bfsLoop`
(`bfsLoopT_fst`). -/
def bfsLoopT (start_word end_word : Word) :
    Nat → List Word → List SPNode → List Word × List Word →
      Option (Except SPError (List Word)) × (List Word × List Word)
  | 0, _, _, acc => (none, acc)
  | _ + 1, _, [], acc =>
    (some (.error (.NoPathExists start_word end_word)), acc)
  | fuel + 1, dict, current :: rest, acc =>
    let dict' := dict.erase current.1
    let nbrs := one_away dict' current.1
    let removed := if current.1 ∈ dict then acc.1 ++ [current.1] else acc.1
    if end_word ∈ nbrs then
      (some (.ok (assemblePath end_word current)),
        (removed, acc.2 ++ nbrs.takeWhile (fun w => !(w == end_word))))
    else
      bfsLoopT start_word end_word fuel dict'
        (rest ++ nbrs.map (fun word => (word, current.1 :: current.2)))
        (removed, acc.2 ++ nbrs)

/-- There is a word ladder from `s` to `w` through `dict₀` with
exactly `n` substitution steps (`n + 1` words). -/
def LadderTo (dict₀ : List Word) (s w : Word) (n : Nat) : Prop :=
  ∃ p, IsLadder dict₀ s w p ∧ p.length = n + 1

/-- The breadth-first level invariant of the search loop, relating the
working dictionary `dict` and the frontier `q` to the original
dictionary `dict₀` and the current front level `d` (measured in
substitution steps from the root):

* `sub`, `nodup`: the working dictionary is a duplicate-free subset of
  the original one;
* `he`: the end word is still unvisited;
* `level`: the frontier holds nodes of level `d` followed by nodes of
  level `d + 1`;
* `noE`: no frontier node holds the end word (the loop would have
  returned at its creation);
* `reach_lb`: no unvisited word is reachable in fewer than `d` steps;
* `at_level`: every unvisited word reachable in exactly `d` steps is
  already on the frontier at level `d`;
* `at_next`: every unvisited word reachable in exactly `d + 1` steps
  is on the frontier, or else is adjacent to a level-`d` frontier
  node (which will push it when expanded);
* `visited_adj`: a word still unvisited but adjacent to some visited
  word is already on the frontier. -/
structure BfsInv (dict₀ : List Word) (s e : Word) (d : Nat)
    (dict : List Word) (q : List SPNode) : Prop where
  sub : ∀ w ∈ dict, w ∈ dict₀
  nodup : dict.Nodup
  he : e ∈ dict
  level : ∃ q₁ q₂, q = q₁ ++ q₂ ∧ (∀ nd ∈ q₁, nd.2.length = d) ∧
    (∀ nd ∈ q₂, nd.2.length = d + 1)
  noE : ∀ nd ∈ q, nd.1 ≠ e
  reach_lb : ∀ w ∈ dict, ∀ n, LadderTo dict₀ s w n → d ≤ n
  at_level : ∀ w ∈ dict, LadderTo dict₀ s w d →
    ∃ nd ∈ q, nd.1 = w ∧ nd.2.length = d
  at_next : ∀ w ∈ dict, LadderTo dict₀ s w (d + 1) →
    (∃ nd ∈ q, nd.1 = w) ∨
    (∃ nd ∈ q, nd.2.length = d ∧ hamming_distance nd.1 w = 1)
  visited_adj : ∀ v ∈ dict₀, v ∉ dict → ∀ w ∈ dict,
    hamming_distance v w = 1 → ∃ nd ∈ q, nd.1 = w

/-! ### Basic lemmas about the Hamming distance -/

theorem hamming_foldl_self (w : Word) (acc : Nat) :
    (List.foldl (fun distance c => if c.1 ≠ c.2 then distance + 1 else distance)
      acc (w.zip w)) = acc := by
  induction w generalizing acc with
  | nil => rfl
  | cons a w ih => simpa using ih acc

theorem hamming_distance_self (w : Word) : hamming_distance w w = 0 := by
  simpa [hamming_distance] using hamming_foldl_self w 0

theorem ne_of_hamming_distance_eq_one {a b : Word}
    (h : hamming_distance a b = 1) : a ≠ b := by
  intro hab
  rw [hab, hamming_distance_self] at h
  exact absurd h (by simp)

/-! ### The dictionary: sorted-list model of `BTreeSet` -/

theorem mem_insertSorted (a w : Word) (l : List Word) :
    a ∈ insertSorted w l ↔ a = w ∨ a ∈ l := by
  induction l with
  | nil => simp [insertSorted]
  | cons x xs ih =>
    by_cases h1 : w < x
    · simp [insertSorted, h1]
    · by_cases h2 : w = x
      · subst h2; simp only [insertSorted, if_neg h1, if_pos rfl]
        constructor
        · intro h; exact Or.inr h
        · rintro (rfl | h) <;> [exact List.mem_cons_self _ _; exact h]
      · simp only [insertSorted, if_neg h1, if_neg h2, List.mem_cons, ih]
        tauto

theorem pairwise_insertSorted (w : Word) (l : List Word)
    (h : l.Pairwise (· < ·)) : (insertSorted w l).Pairwise (· < ·) := by
  induction l with
  | nil => simp [insertSorted]
  | cons x xs ih =>
    rcases List.pairwise_cons.mp h with ⟨hx, hxs⟩
    by_cases h1 : w < x
    · simp only [insertSorted, if_pos h1]
      refine List.pairwise_cons.mpr ⟨?_, h⟩
      intro a ha
      rcases List.mem_cons.mp ha with rfl | ha
      · exact h1
      · exact lt_trans h1 (hx a ha)
    · by_cases h2 : w = x
      · subst h2; simpa [insertSorted, if_neg h1] using h
      · have hxw : x < w := by
          rcases lt_trichotomy w x with h | h | h
          · exact absurd h h1
          · exact absurd h h2
          · exact h
        simp only [insertSorted, if_neg h1, if_neg h2]
        refine List.pairwise_cons.mpr ⟨?_, ih hxs⟩
        intro a ha
        rcases (mem_insertSorted a w xs).mp ha with rfl | ha
        · exact hxw
        · exact hx a ha

theorem mem_foldl_insertSorted (a : Word) (l : List Word) (acc : List Word) :
    a ∈ l.foldl (fun s w => insertSorted w s) acc ↔ a ∈ acc ∨ a ∈ l := by
  induction l generalizing acc with
  | nil => simp
  | cons x xs ih =>
    simp only [List.foldl_cons, ih, mem_insertSorted, List.mem_cons]
    tauto

theorem pairwise_foldl_insertSorted (l : List Word) (acc : List Word)
    (h : acc.Pairwise (· < ·)) :
    (l.foldl (fun s w => insertSorted w s) acc).Pairwise (· < ·) := by
  induction l generalizing acc with
  | nil => exact h
  | cons x xs ih => exact ih _ (pairwise_insertSorted x acc h)

theorem mem_load_dictionary (corpus : List Word) (word_len : Nat) (a : Word) :
    a ∈ load_dictionary corpus word_len ↔ a ∈ corpus ∧ a.length = word_len := by
  rw [load_dictionary, mem_foldl_insertSorted]
  simp [List.mem_filter]

theorem load_dictionary_pairwise (corpus : List Word) (word_len : Nat) :
    (load_dictionary corpus word_len).Pairwise (· < ·) :=
  pairwise_foldl_insertSorted _ _ (by simp)

theorem load_dictionary_nodup (corpus : List Word) (word_len : Nat) :
    (load_dictionary corpus word_len).Nodup :=
  (load_dictionary_pairwise corpus word_len).imp ne_of_lt

/-! ### The termination measure decreases at every loop iteration -/

theorem length_erase_le (a : Word) (l : List Word) :
    (l.erase a).length ≤ l.length :=
  (List.erase_sublist a l).length_le

theorem bfsMeasure_append (dict : List Word) (q₁ q₂ : List SPNode) :
    bfsMeasure dict (q₁ ++ q₂) = bfsMeasure dict q₁ + bfsMeasure dict q₂ := by
  simp [bfsMeasure]

theorem mul_pow_lt_pow (k m B : Nat) (hk : k ≤ m) (hB : m + 2 ≤ B) :
    k * (m + 2) ^ (m - 1) < B ^ m := by
  match m with
  | 0 =>
    have : k = 0 := by omega
    simp [this]
  | m' + 1 =>
    calc k * (m' + 3) ^ m'
        < (m' + 3) * (m' + 3) ^ m' := by
          refine Nat.mul_lt_mul_of_lt_of_le (by omega) (le_refl _) ?_
          exact Nat.pos_pow_of_pos _ (by omega)
      _ = (m' + 3) ^ (m' + 1) := by
          rw [pow_succ, Nat.mul_comm]
      _ ≤ B ^ (m' + 1) := Nat.pow_le_pow_left (by omega) _

theorem sum_le_length_mul (l : List Nat) (C : Nat) (h : ∀ x ∈ l, x ≤ C) :
    l.sum ≤ l.length * C := by
  induction l with
  | nil => simp
  | cons x xs ih =>
    have hx := h x (List.mem_cons_self x xs)
    have := ih (fun y hy => h y (List.mem_cons_of_mem x hy))
    simp only [List.sum_cons, List.length_cons]
    calc x + xs.sum ≤ C + xs.length * C := by omega
      _ = (xs.length + 1) * C := by ring

theorem bfsMeasure_lt (dict : List Word) (c : SPNode) (rest : List SPNode) :
    bfsMeasure (dict.erase c.1)
        (rest ++ (one_away (dict.erase c.1) c.1).map
          (fun word => (word, c.1 :: c.2))) <
      bfsMeasure dict (c :: rest) := by
  have hB : (dict.erase c.1).length + 2 ≤ dict.length + 2 := by
    have := length_erase_le c.1 dict
    omega
  have hrest :
      bfsMeasure (dict.erase c.1) rest ≤ bfsMeasure dict rest := by
    refine List.sum_le_sum ?_
    intro nd _
    have hlen : ((dict.erase c.1).erase nd.1).length ≤
        (dict.erase nd.1).length := by
      rw [List.erase_comm]
      exact length_erase_le c.1 (dict.erase nd.1)
    calc ((dict.erase c.1).length + 2) ^ ((dict.erase c.1).erase nd.1).length
        ≤ (dict.length + 2) ^ ((dict.erase c.1).erase nd.1).length :=
          Nat.pow_le_pow_left hB _
      _ ≤ (dict.length + 2) ^ (dict.erase nd.1).length :=
          Nat.pow_le_pow_right (by omega) hlen
  have hch :
      bfsMeasure (dict.erase c.1)
          ((one_away (dict.erase c.1) c.1).map (fun word => (word, c.1 :: c.2))) <
        (dict.length + 2) ^ (dict.erase c.1).length := by
    have hterm : ∀ x ∈ (((one_away (dict.erase c.1) c.1).map
          (fun word => (word, c.1 :: c.2))).map
          (fun node => ((dict.erase c.1).length + 2) ^
            ((dict.erase c.1).erase node.1).length)),
        x ≤ ((dict.erase c.1).length + 2) ^ ((dict.erase c.1).length - 1) := by
      intro x hx
      rcases List.mem_map.mp hx with ⟨nd, hnd', rfl⟩
      rcases List.mem_map.mp hnd' with ⟨w, hw, rfl⟩
      have hwmem : w ∈ dict.erase c.1 := (List.mem_filter.mp hw).1
      rw [List.length_erase_of_mem hwmem]
    have hsum := sum_le_length_mul _ _ hterm
    have hk : (((one_away (dict.erase c.1) c.1).map
        (fun word => (word, c.1 :: c.2))).map
        (fun node => ((dict.erase c.1).length + 2) ^
          ((dict.erase c.1).erase node.1).length)).length ≤
        (dict.erase c.1).length := by
      rw [List.length_map, List.length_map]
      exact List.length_filter_le _ _
    have hmp := mul_pow_lt_pow _ ((dict.erase c.1).length) (dict.length + 2)
      hk hB
    rw [bfsMeasure]
    calc _ ≤ _ := hsum
      _ < (dict.length + 2) ^ (dict.erase c.1).length := hmp
  calc bfsMeasure (dict.erase c.1) (rest ++ (one_away (dict.erase c.1) c.1).map
        (fun word => (word, c.1 :: c.2)))
      = bfsMeasure (dict.erase c.1) rest + bfsMeasure (dict.erase c.1)
          ((one_away (dict.erase c.1) c.1).map (fun word => (word, c.1 :: c.2))) :=
        bfsMeasure_append _ _ _
    _ < bfsMeasure dict rest + (dict.length + 2) ^ (dict.erase c.1).length := by
        omega
    _ = bfsMeasure dict (c :: rest) := by
        simp [bfsMeasure, Nat.add_comm]

/-- With fuel strictly exceeding the measure, the search loop never
runs out of fuel. -/
theorem bfsLoop_isSome (s e : Word) :
    ∀ (fuel : Nat) (dict : List Word) (q : List SPNode),
      bfsMeasure dict q < fuel → (bfsLoop s e fuel dict q).isSome := by
  intro fuel
  induction fuel with
  | zero => intro dict q h; exact absurd h (by omega)
  | succ fuel ih =>
    intro dict q h
    match q with
    | [] => simp [bfsLoop]
    | c :: rest =>
      rw [bfsLoop]
      by_cases hend : e ∈ one_away (dict.erase c.1) c.1
      · simp [hend]
      · simp only [hend, if_neg, ite_false]
        refine ih _ _ ?_
        have hlt := bfsMeasure_lt dict c rest
        omega

/-! ### Soundness: every returned path is a word ladder -/

theorem isLadder_extend {dict₀ : List Word} {s : Word} {c : SPNode} {w : Word}
    (hc : ValidNode dict₀ s c) (hw : w ∈ dict₀)
    (hadj : hamming_distance c.1 w = 1) :
    IsLadder dict₀ s w ((w :: c.1 :: c.2).reverse) := by
  obtain ⟨hhead, hlast, hchain, hmem⟩ := hc
  have hsplit : (w :: c.1 :: c.2).reverse = (c.1 :: c.2).reverse ++ [w] := by
    simp
  refine ⟨?_, ?_, ?_, ?_⟩
  · rw [hsplit]
    rw [List.head?_append_of_ne_nil _ (by simp)]
    exact hhead
  · rw [hsplit, List.getLast?_append_of_ne_nil _ (by simp)]
    rfl
  · rw [hsplit]
    refine List.chain'_append.mpr ⟨hchain, List.chain'_singleton w, ?_⟩
    intro x hx y hy
    have hx' : c.1 = x := by
      rw [List.getLast?_reverse] at hx
      simpa using hx
    have hy' : w = y := by simpa using hy
    rw [← hx', ← hy']
    exact hadj
  · intro x hx
    rw [hsplit, List.mem_append] at hx
    rcases hx with hx | hx
    · exact hmem x hx
    · have hxw : x = w := by simpa using hx
      rw [hxw]; exact hw

theorem validNode_root {dict₀ : List Word} {s : Word} (hs : s ∈ dict₀) :
    ValidNode dict₀ s (s, []) := by
  refine ⟨rfl, rfl, List.chain'_singleton s, ?_⟩
  intro w hw
  have hws : w = s := by simpa using hw
  rw [hws]; exact hs

theorem bfsLoop_sound (s e : Word) (dict₀ : List Word) :
    ∀ (fuel : Nat) (dict : List Word) (q : List SPNode) (p : List Word),
      (∀ w ∈ dict, w ∈ dict₀) → (∀ nd ∈ q, ValidNode dict₀ s nd) →
      bfsLoop s e fuel dict q = some (.ok p) → IsLadder dict₀ s e p := by
  intro fuel
  induction fuel with
  | zero => intro dict q p _ _ h; exact absurd h (by simp [bfsLoop])
  | succ fuel ih =>
    intro dict q p hsub hval h
    match q with
    | [] => exact absurd h (by simp [bfsLoop])
    | c :: rest =>
      rw [bfsLoop] at h
      have hsub' : ∀ w ∈ dict.erase c.1, w ∈ dict₀ := fun w hw =>
        hsub w ((List.erase_sublist c.1 dict).mem hw)
      have hcval : ValidNode dict₀ s c := hval c (List.mem_cons_self c rest)
      by_cases hend : e ∈ one_away (dict.erase c.1) c.1
      · rw [if_pos hend] at h
        have hp : p = assemblePath e c := by
          have := Option.some.inj h
          exact (Except.ok.inj this).symm
        rw [hp, assemblePath]
        have hadj : hamming_distance c.1 e = 1 := by
          have := (List.mem_filter.mp hend).2
          simpa using this
        exact isLadder_extend hcval (hsub' e (List.mem_filter.mp hend).1) hadj
      · rw [if_neg hend] at h
        refine ih _ _ _ hsub' ?_ h
        intro nd hnd
        rcases List.mem_append.mp hnd with hnd | hnd
        · exact hval nd (List.mem_cons_of_mem c hnd)
        · rcases List.mem_map.mp hnd with ⟨w, hw, rfl⟩
          have hadj : hamming_distance c.1 w = 1 := by
            have := (List.mem_filter.mp hw).2
            simpa using this
          exact isLadder_extend hcval (hsub' w (List.mem_filter.mp hw).1) hadj

/-! ### Unfolding `shortest_path` after successful validation -/

theorem shortest_path_eq_bfsLoop (corpus : List Word) (s e : Word)
    (hlen : s.length = e.length) (hs : s ∈ load_dictionary corpus s.length)
    (he : e ∈ load_dictionary corpus s.length) (hne : s ≠ e) :
    ∃ r, bfsLoop s e
        (bfsMeasure (load_dictionary corpus s.length) [(s, [])] + 1)
        (load_dictionary corpus s.length) [(s, [])] = some r ∧
      shortest_path corpus s e = r := by
  obtain ⟨r, hr⟩ := Option.isSome_iff_exists.mp
    (bfsLoop_isSome s e
      (bfsMeasure (load_dictionary corpus s.length) [(s, [])] + 1)
      (load_dictionary corpus s.length) [(s, [])] (by omega))
  refine ⟨r, hr, ?_⟩
  rw [shortest_path, if_neg (not_not_intro hlen),
    if_neg (not_not_intro hs), if_neg (not_not_intro he), if_neg hne, hr]

theorem bfsLoop_shape (s e : Word) :
    ∀ (fuel : Nat) (dict : List Word) (q : List SPNode),
      bfsLoop s e fuel dict q = none ∨
        (∃ p, bfsLoop s e fuel dict q = some (.ok p)) ∨
        bfsLoop s e fuel dict q = some (.error (.NoPathExists s e)) := by
  intro fuel
  induction fuel with
  | zero => intro dict q; exact Or.inl rfl
  | succ fuel ih =>
    intro dict q
    match q with
    | [] => exact Or.inr (Or.inr rfl)
    | c :: rest =>
      rw [bfsLoop]
      by_cases hend : e ∈ one_away (dict.erase c.1) c.1
      · exact Or.inr (Or.inl ⟨assemblePath e c, by rw [if_pos hend]⟩)
      · rw [if_neg hend]
        exact ih _ _

/-! ### Completeness: a reachable end word is always found -/

theorem mem_of_suffix_cons {x v : Word} {t l : List Word}
    (h : (x :: t) <:+ (v :: l)) : ∀ a ∈ t, a ∈ l := by
  rcases List.suffix_cons_iff.mp h with h | h
  · intro a ha
    have := List.cons.inj h
    rw [← this.2]; exact ha
  · intro a ha
    exact h.sublist.mem (List.mem_cons_of_mem x ha)

theorem getLast?_of_suffix {l₁ l₂ : List Word} (h : l₁ <:+ l₂)
    (hne : l₁ ≠ []) : l₂.getLast? = l₁.getLast? := by
  obtain ⟨pre, rfl⟩ := h
  exact List.getLast?_append_of_ne_nil pre hne

/-- Any single-substitution chain can be shortened to a duplicate-free
one with the same endpoints, using only words of the original chain. -/
theorem chain_dedup (dict : List Word) (e : Word) :
    ∀ (n : Nat) (v : Word) (l : List Word), l.length ≤ n →
      List.Chain' (fun a b => hamming_distance a b = 1) (v :: l) →
      (v :: l).getLast? = some e → (∀ w ∈ l, w ∈ dict) →
      ∃ l₂, List.Chain' (fun a b => hamming_distance a b = 1) (v :: l₂) ∧
        (v :: l₂).getLast? = some e ∧ (∀ w ∈ l₂, w ∈ dict) ∧
        (v :: l₂).Nodup ∧ ∀ w ∈ l₂, w ∈ l := by
  intro n
  induction n with
  | zero =>
    intro v l hlen hch hlast hmem
    have hl : l = [] := List.length_eq_zero.mp (by omega)
    subst hl
    exact ⟨[], hch, hlast, by simp, by simp, by simp⟩
  | succ n ih =>
    intro v l hlen hch hlast hmem
    by_cases hv : v ∈ l
    · obtain ⟨s, t, rfl⟩ := List.append_of_mem hv
      have hsuf : (v :: t) <:+ (v :: (s ++ v :: t)) :=
        ⟨v :: s, by simp⟩
      have hch' := hch.suffix hsuf
      have hlast' : (v :: t).getLast? = some e := by
        rw [← getLast?_of_suffix hsuf (by simp)]; exact hlast
      have hmem' : ∀ w ∈ t, w ∈ dict := fun w hw =>
        hmem w (by simp [hw])
      have hlen' : t.length ≤ n := by
        rw [List.length_append] at hlen
        simp only [List.length_cons] at hlen
        omega
      obtain ⟨l₂, h1, h2, h3, h4, h5⟩ := ih v t hlen' hch' hlast' hmem'
      exact ⟨l₂, h1, h2, h3, h4, fun w hw => by simp [h5 w hw]⟩
    · match l with
      | [] => exact ⟨[], hch, hlast, by simp, by simp, by simp⟩
      | w :: t =>
        have hadj := hch.rel_head
        have hch_t := (List.chain'_cons.mp hch).2
        have hlast_t : (w :: t).getLast? = some e := by
          rw [← List.getLast?_cons_cons (a := v)]; exact hlast
        have hmem_t : ∀ a ∈ t, a ∈ dict := fun a ha =>
          hmem a (List.mem_cons_of_mem w ha)
        have hlen_t : t.length ≤ n := by
          simp only [List.length_cons] at hlen; omega
        obtain ⟨t₂, h1, h2, h3, h4, h5⟩ := ih w t hlen_t hch_t hlast_t hmem_t
        refine ⟨w :: t₂, List.chain'_cons.mpr ⟨hadj, h1⟩, ?_, ?_, ?_, ?_⟩
        · rw [List.getLast?_cons_cons]; exact h2
        · intro a ha
          rcases List.mem_cons.mp ha with rfl | ha
          · exact hmem a (List.mem_cons_self a t)
          · exact h3 a ha
        · refine List.nodup_cons.mpr ⟨?_, h4⟩
          intro hvin
          rcases List.mem_cons.mp hvin with rfl | hvin
          · exact hv (List.mem_cons_self v t)
          · exact hv (List.mem_cons_of_mem w (h5 v hvin))
        · intro a ha
          rcases List.mem_cons.mp ha with rfl | ha
          · exact List.mem_cons_self a t
          · exact List.mem_cons_of_mem w (h5 a ha)

/-- If some frontier node still heads a duplicate-free ladder to the
end word whose continuation lies in the working dictionary, the loop
returns a path. -/
theorem bfsLoop_complete (s e : Word) :
    ∀ (fuel : Nat) (dict : List Word) (q : List SPNode),
      bfsMeasure dict q < fuel → e ∈ dict →
      (∀ nd ∈ q, nd.1 ≠ e) →
      (∃ nd ∈ q, ∃ l, TailLadder dict e nd l) →
      ∃ p, bfsLoop s e fuel dict q = some (.ok p) := by
  intro fuel
  induction fuel with
  | zero => intro dict q hm _ _ _; exact absurd hm (by omega)
  | succ fuel ih =>
    intro dict q hm he hq hwit
    match q with
    | [] =>
      obtain ⟨nd, hnd, _⟩ := hwit
      exact absurd hnd (by simp)
    | c :: rest =>
      rw [bfsLoop]
      by_cases hend : e ∈ one_away (dict.erase c.1) c.1
      · rw [if_pos hend]
        exact ⟨assemblePath e c, rfl⟩
      · rw [if_neg hend]
        have hce : c.1 ≠ e := hq c (List.mem_cons_self c rest)
        have he' : e ∈ dict.erase c.1 :=
          (List.mem_erase_of_ne (Ne.symm hce)).mpr he
        have hm' : bfsMeasure (dict.erase c.1)
            (rest ++ (one_away (dict.erase c.1) c.1).map
              (fun word => (word, c.1 :: c.2))) < fuel := by
          have := bfsMeasure_lt dict c rest
          omega
        have hq' : ∀ nd ∈ rest ++ (one_away (dict.erase c.1) c.1).map
            (fun word => (word, c.1 :: c.2)), nd.1 ≠ e := by
          intro nd hnd
          rcases List.mem_append.mp hnd with hnd | hnd
          · exact hq nd (List.mem_cons_of_mem c hnd)
          · rcases List.mem_map.mp hnd with ⟨w, hw, rfl⟩
            intro hwe
            exact hend (hwe ▸ hw)
        obtain ⟨nd, hnd, l, hch, hlast, hmem, hnodup⟩ := hwit
        by_cases hcin : c.1 ∈ nd.1 :: l
        · obtain ⟨pre, suf, hsplit⟩ := List.append_of_mem hcin
          have hsuf : (c.1 :: suf) <:+ (nd.1 :: l) := ⟨pre, hsplit.symm⟩
          have hch_s := hch.suffix hsuf
          have hlast_s : (c.1 :: suf).getLast? = some e := by
            rw [← getLast?_of_suffix hsuf (by simp)]; exact hlast
          have hmem_s := mem_of_suffix_cons hsuf
          have hnodup_s : (c.1 :: suf).Nodup :=
            hnodup.sublist hsuf.sublist
          match suf, hch_s, hlast_s, hmem_s, hnodup_s with
          | [], _, hlast_s, _, _ =>
            exact absurd (Option.some.inj hlast_s) hce
          | w :: l', hch_s, hlast_s, hmem_s, hnodup_s =>
            have hadj := hch_s.rel_head
            have hw_l : w ∈ l := hmem_s w (List.mem_cons_self w l')
            have hwc : w ≠ c.1 := by
              intro hwc
              have := (List.nodup_cons.mp hnodup_s).1
              exact this (hwc ▸ List.mem_cons_self w l')
            have hw_dict' : w ∈ dict.erase c.1 :=
              (List.mem_erase_of_ne hwc).mpr (hmem w hw_l)
            have hw_one : w ∈ one_away (dict.erase c.1) c.1 := by
              simp [one_away, List.mem_filter, hw_dict', hadj]
            refine ih _ _ hm' he' hq'
              ⟨(w, c.1 :: c.2), ?_, l', ?_, ?_, ?_, ?_⟩
            · exact List.mem_append.mpr (Or.inr
                (List.mem_map.mpr ⟨w, hw_one, rfl⟩))
            · exact (List.chain'_cons.mp hch_s).2
            · rw [← List.getLast?_cons_cons (a := c.1)]; exact hlast_s
            · intro a ha
              have ha_l : a ∈ l := hmem_s a (List.mem_cons_of_mem w ha)
              have hac : a ≠ c.1 := by
                intro hac
                have := (List.nodup_cons.mp hnodup_s).1
                exact this (hac ▸ List.mem_cons_of_mem w ha)
              exact (List.mem_erase_of_ne hac).mpr (hmem a ha_l)
            · exact hnodup_s.sublist (List.sublist_cons_self c.1 (w :: l'))
        · have hndc : nd ≠ c := by
            intro hndc
            exact hcin (hndc ▸ List.mem_cons_self nd.1 l)
          have hnd_rest : nd ∈ rest := by
            rcases List.mem_cons.mp hnd with h | h
            · exact absurd h hndc
            · exact h
          refine ih _ _ hm' he' hq'
            ⟨nd, List.mem_append.mpr (Or.inl hnd_rest), l,
              hch, hlast, ?_, hnodup⟩
          intro a ha
          have hac : a ≠ c.1 := by
            intro hac
            exact hcin (hac ▸ List.mem_cons_of_mem nd.1 ha)
          exact (List.mem_erase_of_ne hac).mpr (hmem a ha)

/-! ### Claim C3: `NoPathExists` exactly when no ladder connects -/

/-- C3.  For equal-length words that are both dictionary members,
`shortest_path` returns `NoPathExists` carrying both words precisely
when no single-substitution chain through the length-filtered
dictionary connects the start word to the end word: the breadth-first
traversal is exhaustive. -/
theorem shortest_path_noPathExists_iff (corpus : List Word) (s e : Word)
    (hlen : s.length = e.length)
    (hs : s ∈ load_dictionary corpus s.length)
    (he : e ∈ load_dictionary corpus s.length) :
    shortest_path corpus s e = .error (.NoPathExists s e) ↔
      ¬∃ p, IsLadder (load_dictionary corpus s.length) s e p := by
  by_cases hse : s = e
  · have hok : shortest_path corpus s e = .ok [s] := by
      rw [shortest_path, if_neg (not_not_intro hlen),
        if_neg (not_not_intro hs), if_neg (not_not_intro (hse ▸ he)),
        if_pos hse]
    constructor
    · intro h
      rw [hok] at h
      exact absurd h (by simp)
    · intro h
      exfalso
      refine h ⟨[s], rfl, by rw [← hse]; rfl, List.chain'_singleton s, ?_⟩
      intro w hw
      have hws : w = s := by simpa using hw
      rw [hws]; exact hs
  · obtain ⟨r, hr, heq⟩ := shortest_path_eq_bfsLoop corpus s e hlen hs he hse
    constructor
    · intro h hlad
      obtain ⟨p, hhead, hlast, hch, hmem⟩ := hlad
      match p, hhead, hlast, hch, hmem with
      | s' :: tail, hhead, hlast, hch, hmem =>
        have hs' : s' = s := by simpa using hhead
        subst hs'
        obtain ⟨l₂, h1, h2, h3, h4, _⟩ := chain_dedup
          (load_dictionary corpus s'.length) e tail.length s' tail
          (le_refl _) hch hlast
          (fun w hw => hmem w (List.mem_cons_of_mem s' hw))
        obtain ⟨p', hp'⟩ := bfsLoop_complete s' e
          (bfsMeasure (load_dictionary corpus s'.length) [(s', [])] + 1)
          (load_dictionary corpus s'.length) [(s', [])]
          (by omega) he (by simpa using hse)
          ⟨(s', []), List.mem_cons_self _ _, l₂, h1, h2, h3, h4⟩
        rw [hp'] at hr
        have hro : r = .ok p' := (Option.some.inj hr).symm
        rw [hro] at heq
        rw [heq] at h
        exact absurd h (by simp)
    · intro h
      rcases bfsLoop_shape s e
          (bfsMeasure (load_dictionary corpus s.length) [(s, [])] + 1)
          (load_dictionary corpus s.length) [(s, [])] with
        hnone | ⟨p, hok⟩ | herr
      · rw [hnone] at hr
        exact absurd hr (by simp)
      · exfalso
        refine h ⟨p, ?_⟩
        refine bfsLoop_sound s e (load_dictionary corpus s.length)
          _ _ _ _ (fun w hw => hw) ?_ hok
        intro nd hnd
        have : nd = (s, []) := by simpa using hnd
        rw [this]
        exact validNode_root hs
      · rw [herr] at hr
        have hre : r = .error (.NoPathExists s e) :=
          (Option.some.inj hr).symm
        rw [hre] at heq
        exact heq

/-- Witness for C3: a two-word dictionary whose members `aa` and `cc`
are not connected by any substitution chain. -/
theorem shortest_path_noPathExists_iff_witness :
    shortest_path [['a','a'], ['c','c']] ['a','a'] ['c','c'] =
        .error (.NoPathExists ['a','a'] ['c','c']) ↔
      ¬∃ p, IsLadder (load_dictionary [['a','a'], ['c','c']] 2)
        ['a','a'] ['c','c'] p :=
  shortest_path_noPathExists_iff [['a','a'], ['c','c']] ['a','a'] ['c','c']
    (by decide) (by decide) (by decide)

/-! ### Claim C4: unequal input lengths -/

/-- C4.  Whenever the two input words have different character lengths,
`shortest_path` fails with `WordsUnequalLen` carrying both words,
whatever the corpus is (so before and independently of any dictionary
lookup or search). -/
theorem shortest_path_wordsUnequalLen (start_word end_word : Word)
    (h : start_word.length ≠ end_word.length) :
    ∀ corpus : List Word, shortest_path corpus start_word end_word =
      .error (.WordsUnequalLen start_word end_word) := by
  intro corpus
  rw [shortest_path, if_pos h]

/-- Witness for C4 at the concrete input of the repository's test:
`shortest_path("cat", "fish")`. -/
theorem shortest_path_wordsUnequalLen_witness :
    shortest_path demoCorpus ['c','a','t'] ['f','i','s','h'] =
      .error (.WordsUnequalLen ['c','a','t'] ['f','i','s','h']) :=
  shortest_path_wordsUnequalLen ['c','a','t'] ['f','i','s','h']
    (by decide) demoCorpus

/-! ### Claim C5: absent dictionary words, start checked first -/

/-- C5.  For equal-length inputs, a start word absent from the
length-filtered dictionary yields `NotInDictionary start_word`
(regardless of the end word's membership, so when both are absent the
error names the start word); when the start word is present and the
end word absent, the error names the end word. -/
theorem shortest_path_notInDictionary (corpus : List Word)
    (start_word end_word : Word)
    (hlen : start_word.length = end_word.length) :
    (start_word ∉ load_dictionary corpus start_word.length →
      shortest_path corpus start_word end_word =
        .error (.NotInDictionary start_word)) ∧
    (start_word ∈ load_dictionary corpus start_word.length →
      end_word ∉ load_dictionary corpus start_word.length →
      shortest_path corpus start_word end_word =
        .error (.NotInDictionary end_word)) := by
  constructor
  · intro hs
    rw [shortest_path, if_neg (not_not_intro hlen), if_pos hs]
  · intro hs he
    rw [shortest_path, if_neg (not_not_intro hlen),
      if_neg (not_not_intro hs), if_pos he]

/-- Witness for C5: `bwq` is absent from the 3-letter dictionary, both
as a start word (with absent end word too) and as an end word. -/
theorem shortest_path_notInDictionary_witness :
    shortest_path demoCorpus ['b','w','q'] ['z','z','z'] =
      .error (.NotInDictionary ['b','w','q']) ∧
    shortest_path demoCorpus ['c','a','t'] ['b','w','q'] =
      .error (.NotInDictionary ['b','w','q']) :=
  ⟨(shortest_path_notInDictionary demoCorpus ['b','w','q'] ['z','z','z']
      (by decide)).1 (by decide),
   (shortest_path_notInDictionary demoCorpus ['c','a','t'] ['b','w','q']
      (by decide)).2 (by decide) (by decide)⟩

/-! ### Claim C6: start equals end -/

/-- C6.  For a dictionary member `a`, `shortest_path a a` succeeds with
the single-element path `[a]`. -/
theorem shortest_path_self (corpus : List Word) (a : Word)
    (h : a ∈ load_dictionary corpus a.length) :
    shortest_path corpus a a = .ok [a] := by
  rw [shortest_path, if_neg (not_not_intro rfl), if_neg (not_not_intro h),
    if_neg (not_not_intro h), if_pos rfl]

/-- Witness for C6 at the repository's own test input
`shortest_path("cat", "cat")`. -/
theorem shortest_path_self_witness :
    shortest_path demoCorpus ['c','a','t'] ['c','a','t'] =
      .ok [['c','a','t']] :=
  shortest_path_self demoCorpus ['c','a','t'] (by decide)

/-! ### Claim C9: the dictionary loader -/

/-- C9.  `load_dictionary` returns exactly the corpus tokens of the
requested length, with duplicates collapsed: membership is equivalent
to corpus membership at that length, and the result has no
duplicates. -/
theorem load_dictionary_characterization (corpus : List Word)
    (word_len : Nat) :
    (∀ w : Word, w ∈ load_dictionary corpus word_len ↔
      w ∈ corpus ∧ w.length = word_len) ∧
    (load_dictionary corpus word_len).Nodup :=
  ⟨fun w => mem_load_dictionary corpus word_len w,
   load_dictionary_nodup corpus word_len⟩

/-! ### Claim C10: determinism and the fixed scan order -/

/-- C10.  `shortest_path` is a pure function of the corpus and the two
input words — two invocations with the same inputs give the same
result, ties included — and the dictionary it scans on every neighbor
expansion is strictly sorted in lexicographic order. -/
theorem shortest_path_deterministic (corpus : List Word) (s e : Word) :
    (∀ r₁ r₂ : Except SPError (List Word), shortest_path corpus s e = r₁ →
      shortest_path corpus s e = r₂ → r₁ = r₂) ∧
    (load_dictionary corpus s.length).Pairwise (· < ·) :=
  ⟨fun _ _ h₁ h₂ => h₁ ▸ h₂, load_dictionary_pairwise corpus s.length⟩

/-- Witness for C10 on the demonstration corpus. -/
theorem shortest_path_deterministic_witness :
    shortest_path demoCorpus ['c','a','t'] ['d','o','g'] =
      shortest_path demoCorpus ['c','a','t'] ['d','o','g'] ∧
    (load_dictionary demoCorpus 3).Pairwise (· < ·) :=
  ⟨(shortest_path_deterministic demoCorpus ['c','a','t'] ['d','o','g']).1
      _ _ rfl rfl,
   by
    have h := (shortest_path_deterministic demoCorpus ['c','a','t']
      ['d','o','g']).2
    simpa using h⟩

/-! ### Claim C2: every returned path is a valid word ladder -/

/-- C2.  Whenever `shortest_path` returns `Ok(path)`, the path starts
with the start word, ends with the end word, every consecutive pair of
its words is at Hamming distance exactly 1, and every word of the path
belongs to the length-filtered dictionary. -/
theorem shortest_path_ok_is_ladder (corpus : List Word) (s e : Word)
    (p : List Word) (h : shortest_path corpus s e = .ok p) :
    IsLadder (load_dictionary corpus s.length) s e p := by
  by_cases hlen : s.length = e.length
  · by_cases hs : s ∈ load_dictionary corpus s.length
    · by_cases he : e ∈ load_dictionary corpus s.length
      · by_cases hse : s = e
        · rw [shortest_path, if_neg (not_not_intro hlen),
            if_neg (not_not_intro hs), if_neg (not_not_intro he),
            if_pos hse] at h
          have hp : p = [s] := (Except.ok.inj h).symm
          subst hp
          refine ⟨rfl, ?_, List.chain'_singleton s, ?_⟩
          · rw [← hse]; rfl
          · intro w hw
            have hws : w = s := by simpa using hw
            rw [hws]; exact hs
        · obtain ⟨r, hr, heq⟩ := shortest_path_eq_bfsLoop corpus s e
            hlen hs he hse
          rw [heq] at h
          rw [h] at hr
          refine bfsLoop_sound s e (load_dictionary corpus s.length)
            _ _ _ _ (fun w hw => hw) ?_ hr
          intro nd hnd
          have : nd = (s, []) := by simpa using hnd
          rw [this]
          exact validNode_root hs
      · rw [shortest_path, if_neg (not_not_intro hlen),
          if_neg (not_not_intro hs), if_pos he] at h
        exact absurd h (by simp)
    · rw [shortest_path, if_neg (not_not_intro hlen), if_pos hs] at h
      exact absurd h (by simp)
  · rw [shortest_path, if_pos hlen] at h
    exact absurd h (by simp)

/-- Witness for C2 at the repository's `cat → dog` test. -/
theorem shortest_path_ok_is_ladder_witness :
    IsLadder (load_dictionary demoCorpus 3) ['c','a','t'] ['d','o','g']
      [['c','a','t'], ['c','o','t'], ['c','o','g'], ['d','o','g']] :=
  shortest_path_ok_is_ladder demoCorpus ['c','a','t'] ['d','o','g']
    [['c','a','t'], ['c','o','t'], ['c','o','g'], ['d','o','g']] (by rfl)

/-! ### Claim C7: the search loop terminates -/

/-- C7.  The breadth-first search loop always terminates: from any
loop state — in particular the one `shortest_path` starts from — fuel
one larger than the termination measure is never exhausted, because
every iteration strictly decreases the measure (each dictionary word
can be removed at most once, and nodes are enqueued only for words
still present in the dictionary). -/
theorem bfsLoop_terminates (s e : Word) (dict : List Word)
    (q : List SPNode) :
    (bfsLoop s e (bfsMeasure dict q + 1) dict q).isSome :=
  bfsLoop_isSome s e _ dict q (by omega)

example : hamming_distance ['c','a','t'] ['c','o','t'] = 1 := by decide

example :
    load_dictionary [['a','b'], ['c'], ['a','b'], ['b','a']] 2 =
      [['a','b'], ['b','a']] := by decide

example :
    shortest_path [['c','a','t'], ['c','o','t'], ['c','o','g'],
        ['d','o','g'], ['b','a','t'], ['b','a','d']]
      ['c','a','t'] ['d','o','g'] =
      .ok [['c','a','t'], ['c','o','t'], ['c','o','g'], ['d','o','g']] := by
  rfl

/-! ### Claim C8: enqueueing behaviour of the traversal -/

/-- The instrumented loop computes exactly the same result as the
plain loop: the trace is ghost state. -/
theorem bfsLoopT_fst (s e : Word) :
    ∀ (fuel : Nat) (dict : List Word) (q : List SPNode)
      (acc : List Word × List Word),
      (bfsLoopT s e fuel dict q acc).1 = bfsLoop s e fuel dict q := by
  intro fuel
  induction fuel with
  | zero => intro dict q acc; rfl
  | succ fuel ih =>
    intro dict q acc
    match q with
    | [] => rfl
    | c :: rest =>
      rw [bfsLoopT, bfsLoop]
      by_cases hend : e ∈ one_away (dict.erase c.1) c.1
      · rw [if_pos hend, if_pos hend]
      · rw [if_neg hend, if_neg hend]
        exact ih _ _ _

/-- Invariant of the removal log: it never acquires a duplicate,
because a word is appended only when it is still in the dictionary
and it leaves the dictionary at that very moment. -/
theorem bfsLoopT_removed_nodup (s e : Word) :
    ∀ (fuel : Nat) (dict : List Word) (q : List SPNode)
      (acc : List Word × List Word), dict.Nodup → acc.1.Nodup →
      (∀ w ∈ acc.1, w ∉ dict) →
      (bfsLoopT s e fuel dict q acc).2.1.Nodup := by
  intro fuel
  induction fuel with
  | zero => intro dict q acc _ hacc _; exact hacc
  | succ fuel ih =>
    intro dict q acc hnd hacc hdisj
    match q with
    | [] => exact hacc
    | c :: rest =>
      rw [bfsLoopT]
      have hrm : (if c.1 ∈ dict then acc.1 ++ [c.1] else acc.1).Nodup := by
        by_cases hc : c.1 ∈ dict
        · rw [if_pos hc]
          have hcnot : c.1 ∉ acc.1 := fun hmem => hdisj c.1 hmem hc
          simp [List.nodup_append, hacc, hcnot]
        · rw [if_neg hc]; exact hacc
      have hrd : ∀ w ∈ (if c.1 ∈ dict then acc.1 ++ [c.1] else acc.1),
          w ∉ dict.erase c.1 := by
        by_cases hc : c.1 ∈ dict
        · rw [if_pos hc]
          intro w hw
          rcases List.mem_append.mp hw with hw | hw
          · intro hmem
            exact hdisj w hw ((List.erase_sublist c.1 dict).mem hmem)
          · have hwc : w = c.1 := by simpa using hw
            rw [hwc]
            exact hnd.not_mem_erase
        · rw [if_neg hc]
          intro w hw hmem
          exact hdisj w hw ((List.erase_sublist c.1 dict).mem hmem)
      by_cases hend : e ∈ one_away (dict.erase c.1) c.1
      · rw [if_pos hend]
        exact hrm
      · rw [if_neg hend]
        exact ih _ _ _ (hnd.sublist (List.erase_sublist c.1 dict)) hrm hrd

/-- C8, counterexample to the claim as stated: in the `cat → dog`
search over `demoCorpus2` (run with exactly the state and fuel
`shortest_path` uses), the word `cog` is pushed onto the frontier
twice — once as a child of `cag` and once as a child of `cot`, both
before `cog` is first expanded — so the words enqueued so far are not
pairwise distinct; the search nevertheless succeeds. -/
theorem bfs_enqueued_twice_counterexample :
    ¬ ((bfsLoopT ['c','a','t'] ['d','o','g']
        (bfsMeasure (load_dictionary demoCorpus2 3) [(['c','a','t'], [])] + 1)
        (load_dictionary demoCorpus2 3) [(['c','a','t'], [])]
        ([], [])).2.2).Nodup ∧
    (bfsLoopT ['c','a','t'] ['d','o','g']
        (bfsMeasure (load_dictionary demoCorpus2 3) [(['c','a','t'], [])] + 1)
        (load_dictionary demoCorpus2 3) [(['c','a','t'], [])]
        ([], [])).2.2 =
      [['b','a','t'], ['c','a','g'], ['c','o','t'], ['b','a','d'],
       ['c','o','g'], ['c','o','g']] := by
  constructor
  · decide
  · rfl

/-- C8, amended.  What the dictionary-removal trick actually
guarantees: no word is ever *removed from the dictionary* (expanded)
twice — the removal log of any run of the search loop is
duplicate-free — and hence a word can never re-enter the frontier
after its first expansion; words may however be enqueued more than
once *before* their first expansion, when discovered by several
parents of the same level. -/
theorem bfs_removed_words_distinct (s e : Word) (dict : List Word)
    (q : List SPNode) (fuel : Nat) (hnd : dict.Nodup) :
    (bfsLoopT s e fuel dict q ([], [])).2.1.Nodup :=
  bfsLoopT_removed_nodup s e fuel dict q ([], []) hnd (by simp) (by simp)

/-- Witness for the amended C8 on the `demoCorpus2` search. -/
theorem bfs_removed_words_distinct_witness :
    (bfsLoopT ['c','a','t'] ['d','o','g']
        (bfsMeasure (load_dictionary demoCorpus2 3) [(['c','a','t'], [])] + 1)
        (load_dictionary demoCorpus2 3) [(['c','a','t'], [])]
        ([], [])).2.1.Nodup :=
  bfs_removed_words_distinct ['c','a','t'] ['d','o','g']
    (load_dictionary demoCorpus2 3) [(['c','a','t'], [])]
    (bfsMeasure (load_dictionary demoCorpus2 3) [(['c','a','t'], [])] + 1)
    (by decide)

/-! ### Optimality: ladder-length decomposition lemmas -/

theorem ladderTo_zero {dict₀ : List Word} {s w : Word}
    (h : LadderTo dict₀ s w 0) : w = s := by
  obtain ⟨p, ⟨hh, hl, _, _⟩, hlen⟩ := h
  obtain ⟨a, rfl⟩ := List.length_eq_one.mp hlen
  have h1 : a = s := by simpa using hh
  have h2 : a = w := by simpa using hl
  rw [← h2, h1]

theorem ladderTo_succ {dict₀ : List Word} {s w : Word} {n : Nat}
    (h : LadderTo dict₀ s w (n + 1)) :
    ∃ u, LadderTo dict₀ s u n ∧ hamming_distance u w = 1 ∧ u ∈ dict₀ := by
  obtain ⟨p, ⟨hh, hl, hc, hm⟩, hlen⟩ := h
  have hpne : p ≠ [] := by
    intro h0; rw [h0] at hlen; simp at hlen
  have hsplit : p.dropLast ++ [p.getLast hpne] = p :=
    List.dropLast_append_getLast hpne
  have hgw : p.getLast hpne = w := by
    have h1 := List.getLast?_eq_getLast p hpne
    rw [h1] at hl
    exact Option.some.inj hl
  have hp0len : p.dropLast.length = n + 1 := by
    rw [List.length_dropLast, hlen]
    omega
  have hp0ne : p.dropLast ≠ [] := by
    intro h0; rw [h0] at hp0len; simp at hp0len
  have hcsplit : List.Chain' (fun a b => hamming_distance a b = 1)
      (p.dropLast ++ [p.getLast hpne]) := by
    rw [hsplit]; exact hc
  refine ⟨p.dropLast.getLast hp0ne,
    ⟨p.dropLast, ⟨?_, List.getLast?_eq_getLast _ hp0ne, hc.init, ?_⟩,
      hp0len⟩, ?_, ?_⟩
  · have hh' : (p.dropLast ++ [p.getLast hpne]).head? = some s := by
      rw [hsplit]; exact hh
    rw [List.head?_append_of_ne_nil _ hp0ne] at hh'
    exact hh'
  · intro x hx
    exact hm x ((List.dropLast_sublist p).mem hx)
  · obtain ⟨_, _, hrel⟩ := List.chain'_append.mp hcsplit
    have hr := hrel (p.dropLast.getLast hp0ne)
      (List.getLast?_eq_getLast _ hp0ne) (p.getLast hpne) rfl
    rw [hgw] at hr
    exact hr
  · exact hm _ ((List.dropLast_sublist p).mem (List.getLast_mem hp0ne))

/-- When the head of the frontier already sits at level `d + 1`, the
whole frontier does, and the invariant can be restated at the next
level. -/
theorem bfsInv_step_up {dict₀ : List Word} {s e : Word} {d : Nat}
    {dict : List Word} {c : SPNode} {rest : List SPNode}
    (inv : BfsInv dict₀ s e d dict (c :: rest))
    (hc : c.2.length = d + 1) :
    BfsInv dict₀ s e (d + 1) dict (c :: rest) := by
  obtain ⟨q₁, q₂, hq, hq₁, hq₂⟩ := inv.level
  have hall : ∀ nd ∈ c :: rest, nd.2.length = d + 1 := by
    match q₁, hq, hq₁ with
    | [], hq, _ =>
      intro nd hnd
      refine hq₂ nd ?_
      rw [List.nil_append] at hq
      rw [← hq]
      exact hnd
    | a :: q₁', hq, hq₁ =>
      exfalso
      have hac : c = a := (List.cons.inj hq).1
      have had : a.2.length = d := hq₁ a (List.mem_cons_self a q₁')
      rw [← hac] at had
      omega
  refine ⟨inv.sub, inv.nodup, inv.he,
    ⟨c :: rest, [], by simp, hall, by simp⟩, inv.noE, ?_, ?_, ?_,
    inv.visited_adj⟩
  · intro w hw n hlad
    have h1 := inv.reach_lb w hw n hlad
    rcases Nat.eq_or_lt_of_le h1 with heq | hlt
    · exfalso
      obtain ⟨nd, hnd, _, hndl⟩ := inv.at_level w hw (heq ▸ hlad)
      have := hall nd hnd
      omega
    · omega
  · intro w hw hlad
    rcases inv.at_next w hw hlad with ⟨nd, hnd, hnd1⟩ | ⟨nd, hnd, hndl, _⟩
    · exact ⟨nd, hnd, hnd1, hall nd hnd⟩
    · exfalso
      have := hall nd hnd
      omega
  · intro w hw hlad
    obtain ⟨u, hu, hadj, hu₀⟩ := ladderTo_succ hlad
    by_cases hudict : u ∈ dict
    · rcases inv.at_next u hudict hu with ⟨nd, hnd, hnd1⟩ |
        ⟨nd, hnd, hndl, _⟩
      · right
        refine ⟨nd, hnd, hall nd hnd, ?_⟩
        rw [hnd1]
        exact hadj
      · exfalso
        have := hall nd hnd
        omega
    · left
      exact inv.visited_adj u hu₀ hudict w hw hadj

theorem mem_one_away {dict : List Word} {v w : Word} :
    w ∈ one_away dict v ↔ w ∈ dict ∧ hamming_distance v w = 1 := by
  simp [one_away, List.mem_filter]

/-- Expanding a level-`d` node that does not see the end word
preserves the breadth-first invariant at level `d`. -/
theorem bfsInv_step {dict₀ : List Word} {s e : Word} {d : Nat}
    {dict : List Word} {c : SPNode} {rest : List SPNode}
    (inv : BfsInv dict₀ s e d dict (c :: rest))
    (hc : c.2.length = d)
    (hend : e ∉ one_away (dict.erase c.1) c.1) :
    BfsInv dict₀ s e d (dict.erase c.1)
      (rest ++ (one_away (dict.erase c.1) c.1).map
        (fun word => (word, c.1 :: c.2))) := by
  have hsub' : ∀ w ∈ dict.erase c.1, w ∈ dict :=
    fun w hw => (List.erase_sublist c.1 dict).mem hw
  have hchild : ∀ w, w ∈ one_away (dict.erase c.1) c.1 →
      (w, c.1 :: c.2) ∈ rest ++ (one_away (dict.erase c.1) c.1).map
        (fun word => (word, c.1 :: c.2)) :=
    fun w hw => List.mem_append.mpr (Or.inr (List.mem_map.mpr ⟨w, hw, rfl⟩))
  have hwc : ∀ w ∈ dict.erase c.1, w ≠ c.1 := by
    intro w hw hwc
    rw [hwc] at hw
    exact inv.nodup.not_mem_erase hw
  obtain ⟨q₁, q₂, hq, hq₁, hq₂⟩ := inv.level
  obtain ⟨q₁', hq₁'eq, hrest⟩ :
      ∃ q₁', q₁ = c :: q₁' ∧ rest = q₁' ++ q₂ := by
    match q₁, hq, hq₁ with
    | [], hq, _ =>
      exfalso
      rw [List.nil_append] at hq
      have h1 : c.2.length = d + 1 := hq₂ c (by
        rw [← hq]; exact List.mem_cons_self c rest)
      omega
    | a :: q₁', hq, hq₁ =>
      have h1 := List.cons.inj hq
      exact ⟨q₁', by rw [h1.1], h1.2⟩
  refine ⟨fun w hw => inv.sub w (hsub' w hw),
    inv.nodup.sublist (List.erase_sublist c.1 dict),
    (List.mem_erase_of_ne
      (Ne.symm (inv.noE c (List.mem_cons_self c rest)))).mpr inv.he,
    ?_, ?_, ?_, ?_, ?_, ?_⟩
  · refine ⟨q₁', q₂ ++ (one_away (dict.erase c.1) c.1).map
      (fun word => (word, c.1 :: c.2)), ?_, ?_, ?_⟩
    · rw [hrest, List.append_assoc]
    · intro nd hnd
      exact hq₁ nd (by rw [hq₁'eq]; exact List.mem_cons_of_mem c hnd)
    · intro nd hnd
      rcases List.mem_append.mp hnd with hnd | hnd
      · exact hq₂ nd hnd
      · rcases List.mem_map.mp hnd with ⟨w, _, rfl⟩
        simp only [List.length_cons]
        omega
  · intro nd hnd
    rcases List.mem_append.mp hnd with hnd | hnd
    · exact inv.noE nd (List.mem_cons_of_mem c hnd)
    · rcases List.mem_map.mp hnd with ⟨w, hw, rfl⟩
      intro hwe
      exact hend (by rw [← hwe]; exact hw)
  · intro w hw n hlad
    exact inv.reach_lb w (hsub' w hw) n hlad
  · intro w hw hlad
    obtain ⟨nd, hnd, hnd1, hndl⟩ := inv.at_level w (hsub' w hw) hlad
    rcases List.mem_cons.mp hnd with rfl | hnd
    · exact absurd (hnd1 ▸ hwc w hw) (by simp)
    · exact ⟨nd, List.mem_append.mpr (Or.inl hnd), hnd1, hndl⟩
  · intro w hw hlad
    rcases inv.at_next w (hsub' w hw) hlad with ⟨nd, hnd, hnd1⟩ |
      ⟨nd, hnd, hndl, hadj⟩
    · rcases List.mem_cons.mp hnd with rfl | hnd
      · exact absurd (hnd1 ▸ hwc w hw) (by simp)
      · exact Or.inl ⟨nd, List.mem_append.mpr (Or.inl hnd), hnd1⟩
    · rcases List.mem_cons.mp hnd with rfl | hnd
      · refine Or.inl ⟨(w, nd.1 :: nd.2), hchild w ?_, rfl⟩
        exact mem_one_away.mpr ⟨hw, hadj⟩
      · exact Or.inr ⟨nd, List.mem_append.mpr (Or.inl hnd), hndl, hadj⟩
  · intro v hv₀ hv w hw hadj
    by_cases hvdict : v ∈ dict
    · have hvc : v = c.1 := by
        by_contra hne
        exact hv ((List.mem_erase_of_ne hne).mpr hvdict)
      refine ⟨(w, c.1 :: c.2), hchild w ?_, rfl⟩
      exact mem_one_away.mpr ⟨hw, by rw [← hvc]; exact hadj⟩
    · obtain ⟨nd, hnd, hnd1⟩ :=
        inv.visited_adj v hv₀ hvdict w (hsub' w hw) hadj
      rcases List.mem_cons.mp hnd with rfl | hnd
      · exact absurd (hnd1 ▸ hwc w hw) (by simp)
      · exact ⟨nd, List.mem_append.mpr (Or.inl hnd), hnd1⟩

/-- The invariant holds when the search starts: full dictionary,
frontier holding only the root node. -/
theorem bfsInv_init {dict₀ : List Word} {s e : Word}
    (_hs : s ∈ dict₀) (he : e ∈ dict₀) (hnd : dict₀.Nodup)
    (hse : s ≠ e) : BfsInv dict₀ s e 0 dict₀ [(s, [])] := by
  refine ⟨fun w hw => hw, hnd, he,
    ⟨[(s, [])], [], by simp, by simp, by simp⟩, ?_, ?_, ?_, ?_, ?_⟩
  · intro nd hnd'
    have h1 : nd = (s, []) := by simpa using hnd'
    rw [h1]
    exact hse
  · intro w _ n _
    omega
  · intro w _ hlad
    have hws : w = s := ladderTo_zero hlad
    exact ⟨(s, []), by simp, by rw [hws], by simp⟩
  · intro w _ hlad
    obtain ⟨u, hu, hadj, _⟩ := ladderTo_succ hlad
    have hus : u = s := ladderTo_zero hu
    right
    refine ⟨(s, []), by simp, by simp, ?_⟩
    rw [show (s, ([] : List Word)).1 = s from rfl, ← hus]
    exact hadj
  · intro v hv₀ hv
    exact absurd hv₀ hv

/-- Breadth-first optimality: under the invariant, any path the loop
returns is no longer than one plus any ladder length from start to
end. -/
theorem bfsLoop_optimal {dict₀ : List Word} (s e : Word) :
    ∀ (fuel d : Nat) (dict : List Word) (q : List SPNode)
      (p : List Word), BfsInv dict₀ s e d dict q →
      bfsLoop s e fuel dict q = some (.ok p) →
      ∀ n, LadderTo dict₀ s e n → p.length ≤ n + 1 := by
  intro fuel
  induction fuel with
  | zero =>
    intro d dict q p _ h
    exact absurd h (by simp [bfsLoop])
  | succ fuel ih =>
    intro d dict q p inv h
    match q with
    | [] =>
      rw [bfsLoop] at h
      exact absurd h (by simp)
    | c :: rest =>
      have hcl : c.2.length = d ∨ c.2.length = d + 1 := by
        obtain ⟨q₁, q₂, hq, hq₁, hq₂⟩ := inv.level
        have hcm : c ∈ q₁ ++ q₂ := by
          rw [← hq]; exact List.mem_cons_self c rest
        rcases List.mem_append.mp hcm with h1 | h1
        · exact Or.inl (hq₁ c h1)
        · exact Or.inr (hq₂ c h1)
      have inv' : BfsInv dict₀ s e c.2.length dict (c :: rest) := by
        rcases hcl with h1 | h1
        · rw [h1]; exact inv
        · rw [h1]; exact bfsInv_step_up inv h1
      rw [bfsLoop] at h
      by_cases hend : e ∈ one_away (dict.erase c.1) c.1
      · rw [if_pos hend] at h
        have hp : p = assemblePath e c :=
          (Except.ok.inj (Option.some.inj h)).symm
        intro n hlad
        have hlb : c.2.length + 1 ≤ n := by
          have h1 : c.2.length ≤ n := inv'.reach_lb e inv'.he n hlad
          rcases Nat.eq_or_lt_of_le h1 with heq | hlt
          · exfalso
            obtain ⟨nd, hnd, hnd1, _⟩ := inv'.at_level e inv'.he
              (by rw [heq]; exact hlad)
            exact inv'.noE nd hnd hnd1
          · omega
        rw [hp, assemblePath]
        simp only [List.length_reverse, List.length_cons]
        omega
      · rw [if_neg hend] at h
        exact ih c.2.length _ _ p (bfsInv_step inv' rfl hend) h

/-! ### Claim C1: the returned path is a shortest path -/

/-- C1.  Whenever `shortest_path` returns `Ok(path)`, no word ladder
from the start word to the end word through the length-filtered
dictionary is shorter: every such ladder has at least as many words
(equivalently, at least as many substitution steps) as the returned
path.  This is the breadth-first level-order guarantee. -/
theorem shortest_path_minimal (corpus : List Word) (s e : Word)
    (p : List Word) (h : shortest_path corpus s e = .ok p) :
    ∀ p' : List Word, IsLadder (load_dictionary corpus s.length) s e p' →
      p.length ≤ p'.length := by
  intro p' hp'
  have hp'ne : p' ≠ [] := by
    intro h0
    have := hp'.1
    rw [h0] at this
    exact absurd this (by simp)
  have hp'pos : 0 < p'.length := List.length_pos.mpr hp'ne
  by_cases hlen : s.length = e.length
  · by_cases hs : s ∈ load_dictionary corpus s.length
    · by_cases he : e ∈ load_dictionary corpus s.length
      · by_cases hse : s = e
        · rw [shortest_path, if_neg (not_not_intro hlen),
            if_neg (not_not_intro hs), if_neg (not_not_intro he),
            if_pos hse] at h
          have hp1 : p = [s] := (Except.ok.inj h).symm
          rw [hp1]
          simpa using hp'pos
        · obtain ⟨r, hr, heq⟩ := shortest_path_eq_bfsLoop corpus s e
            hlen hs he hse
          rw [heq] at h
          rw [h] at hr
          have hinit := bfsInv_init hs he
            (load_dictionary_nodup corpus s.length) hse
          have hopt := bfsLoop_optimal s e
            (bfsMeasure (load_dictionary corpus s.length) [(s, [])] + 1)
            0 _ _ p hinit hr
          have hlad : LadderTo (load_dictionary corpus s.length) s e
              (p'.length - 1) := ⟨p', hp', by omega⟩
          have := hopt _ hlad
          omega
      · rw [shortest_path, if_neg (not_not_intro hlen),
          if_neg (not_not_intro hs), if_pos he] at h
        exact absurd h (by simp)
    · rw [shortest_path, if_neg (not_not_intro hlen), if_pos hs] at h
      exact absurd h (by simp)
  · rw [shortest_path, if_pos hlen] at h
    exact absurd h (by simp)

/-- Witness for C1 on `demoCorpus2`, where two distinct shortest
`cat → dog` ladders exist: the returned path `cat,cag,cog,dog` is no
longer than the other ladder `cat,cot,cog,dog`. -/
theorem shortest_path_minimal_witness :
    ([['c','a','t'], ['c','a','g'], ['c','o','g'], ['d','o','g']] :
        List Word).length ≤
      ([['c','a','t'], ['c','o','t'], ['c','o','g'], ['d','o','g']] :
        List Word).length :=
  shortest_path_minimal demoCorpus2 ['c','a','t'] ['d','o','g']
    [['c','a','t'], ['c','a','g'], ['c','o','g'], ['d','o','g']] (by rfl)
    [['c','a','t'], ['c','o','t'], ['c','o','g'], ['d','o','g']]
    (by
      refine ⟨rfl, rfl, ?_, by decide⟩
      simp only [List.chain'_cons, List.chain'_singleton, and_true]
      refine ⟨by decide, by decide, by decide⟩)
